import Mathlib

/-!
Shallow embedding of `mpmp7_unique_distances.py`, a brute-force solver for
Matt Parker's "unique distancing" puzzle: place `n` counters on a
`width^dimension` grid so that all pairwise distances differ, counting
solutions up to the grid's reflection/axis-permutation symmetry group.

Python integers are arbitrary precision, so coordinates and distances are
modelled as `ℤ` and counts as `ℤ`/`ℕ`; Python `//` (floor division) is
`Int.fdiv` and `%` (floor modulus) is `Int.fmod`.  Python tuples (points)
become `List ℤ`, Python sets of points (arrangements) become
`Finset (List ℤ)`, and generators become `List`s.
-/

namespace Mpmp7

/-- `class Size`: struct keeping the dimension and width of the grid. -/
structure Size where
  dim : ℕ
  width : ℕ
deriving DecidableEq, Repr

/-- A point is a tuple of integer coordinates. -/
abbrev Point := List ℤ

/-- `distance_squared(p, q)`: `sum(((p-q)**2 for p, q in zip(p, q)))`.
`zip` truncates to the shorter of the two tuples. -/
def distance_squared (p q : Point) : ℤ :=
  ((List.zip p q).map (fun s => (s.1 - s.2) ^ 2)).sum

/-- `numpositions(size, ncounters)`: incremental product
`total *= choices; total //= i+1; choices -= 1` starting from
`total = 1, choices = width**dim`.  Python `//` is floor division
(`Int.fdiv`). -/
def numpositions (size : Size) (ncounters : ℕ) : ℤ :=
  ((List.range ncounters).foldl
    (fun st i => ((st.1 * st.2).fdiv ((i : ℤ) + 1), st.2 - 1))
    (1, (size.width : ℤ) ^ size.dim)).1

/-- The same loop as `numpositions`, additionally recording whether every
floor division `total //= i+1` was exact (remainder zero), i.e. whether no
truncation occurred at any step. -/
def numpositionsExact (size : Size) (ncounters : ℕ) : Bool :=
  ((List.range ncounters).foldl
    (fun st i =>
      ((st.1 * st.2.1).fdiv ((i : ℤ) + 1), st.2.1 - 1,
        st.2.2 && ((st.1 * st.2.1).fmod ((i : ℤ) + 1) == 0)))
    (1, (size.width : ℤ) ^ size.dim, true)).2.2

/-- Helper for `generatepoints`: `itertools.product(*[range(w)] * d)`,
the Cartesian product with the first coordinate varying slowest. -/
def pointsAux : ℕ → ℕ → List Point
  | 0, _ => [[]]
  | d + 1, w =>
    (List.range w).flatMap (fun x => (pointsAux d w).map (fun rest => (x : ℤ) :: rest))

/-- `generatepoints(size)`: all points on the grid of `size`. -/
def generatepoints (size : Size) : List Point :=
  pointsAux size.dim size.width

/-- `itertools.combinations(l, n)`: all length-`n` subsequences of `l`,
in order (combinations containing the first element come first). -/
def combinationsList : List α → ℕ → List (List α)
  | _, 0 => [[]]
  | [], _ + 1 => []
  | x :: xs, n + 1 =>
    (combinationsList xs n).map (fun c => x :: c) ++ combinationsList xs (n + 1)

/-- `generatearrangements(size, ncounters)`:
`combinations(generatepoints(size), ncounters)`. -/
def generatearrangements (size : Size) (ncounters : ℕ) : List (List Point) :=
  combinationsList (generatepoints size) ncounters

/-- `itertools.combinations(l, 2)` specialised: all ordered-by-position
unordered pairs of elements of `l`. -/
def pairsList : List α → List (α × α)
  | [] => []
  | x :: xs => xs.map (fun y => (x, y)) ++ pairsList xs

/-- The loop body of `hasuniquedistance`: walk the pairs, accumulating seen
distances in `distances`, returning `false` on the first repeat. -/
def hudAux : List (Point × Point) → List ℤ → Bool
  | [], _ => true
  | (p, q) :: rest, distances =>
    let d := distance_squared p q
    if d ∈ distances then false else hudAux rest (d :: distances)

/-- `hasuniquedistance(pieces)`: enumerate all pairs of counters and check
if all (squared) distances are unique.  `pieces` is a Python set; we model
its iteration order by a list of the elements. -/
def hasuniquedistance (pieces : List Point) : Bool :=
  hudAux (pairsList pieces) []

/-- `doflip(x, bit)` inside `rotatepoint`: reflect a single coordinate
conditional on the given bit (Python truthiness: any nonzero bit). -/
def doflip (size : Size) (x : ℤ) (bit : ℕ) : ℤ :=
  if bit ≠ 0 then (size.width : ℤ) - 1 - x else x

/-- `rotatepoint(size, flip, perm, p)`:
`tuple(doflip(p[i], bit) for bit, i in zip(bitgen(flip), perm))`.
The bit generator yields `flip & 1` then shifts right, consumed in lockstep
with `perm`, which the recursion mirrors (`flip % 2` now, `flip / 2` next). -/
def rotatepoint (size : Size) (flip : ℕ) (perm : List ℕ) (p : Point) : Point :=
  match perm with
  | [] => []
  | i :: rest => doflip size (p.getD i 0) (flip % 2) :: rotatepoint size (flip / 2) rest p

/-- `rotatearragement(size, flip, perm, a)`:
`set(rotatepoint(size, flip, perm, p) for p in a)`. -/
def rotatearragement (size : Size) (flip : ℕ) (perm : List ℕ) (a : Finset Point) :
    Finset Point :=
  a.image (rotatepoint size flip perm)

/-- `istransformof(size, a, b)`: enumerate all `flip in range(2**dim)` and
all permutations of `range(dim)`, returning `True` on the first transform of
`a` equal (as a set) to `b`.  The Python function falls off the end (returns
`None`, which is falsy) when no transform matches; in boolean position that
is `false`.  `List.permutations'` enumerates the same set of permutations as
`itertools.permutations` (order differs, which `any` does not observe). -/
def istransformof (size : Size) (a b : Finset Point) : Bool :=
  (List.range (2 ^ size.dim)).any (fun flip =>
    ((List.range size.dim).permutations').any (fun perm =>
      decide (rotatearragement size flip perm a = b)))

/-- `containstransform(size, solutions, a)`: does the `solutions` list
already contain `a` in a rotated or reflected transformation? -/
def containstransform (size : Size) (solutions : List (Finset Point)) (a : Finset Point) :
    Bool :=
  solutions.any (fun b => istransformof size a b)

/-- One iteration of the `solvegrid` loop: `pieces` (a combination, hence
duplicate-free) passes to the solution list iff `hasuniquedistance` holds
and no accepted solution is a transform of it.  The `set(pieces)`
conversion is `List.toFinset`; printing is I/O and carries no state. -/
def solvestep (size : Size) (solutions : List (Finset Point)) (pieces : List Point) :
    List (Finset Point) :=
  if hasuniquedistance pieces then
    if containstransform size solutions pieces.toFinset then solutions
    else solutions ++ [pieces.toFinset]
  else solutions

/-- `solvegrid(args, size, ncounters)` without the verbose printing:
fold the filter/deduplicate step over all arrangements, starting from the
empty solution list. -/
def solvegrid (size : Size) (ncounters : ℕ) : List (Finset Point) :=
  (generatearrangements size ncounters).foldl (solvestep size) []

/-- Membership in the grid: a tuple of `dim` coordinates each in
`[0, width)`. -/
def inGrid (size : Size) (p : Point) : Prop :=
  p.length = size.dim ∧ ∀ x ∈ p, 0 ≤ x ∧ x < (size.width : ℤ)

instance (size : Size) (p : Point) : Decidable (inGrid size p) := by
  unfold inGrid; infer_instance

/-- Assemble a natural number from a list of bits (least significant
first). -/
def natFromBits : List ℕ → ℕ
  | [] => 0
  | b :: bs => b % 2 + 2 * natFromBits bs

/-- The inverse axis permutation: position `k` holds the index at which
`perm` maps onto axis `k`. -/
def invperm (dim : ℕ) (perm : List ℕ) : List ℕ :=
  (List.range dim).map (fun k => perm.indexOf k)

/-- The reflection mask matching `invperm`: output axis `k` of the inverse
must undo the reflection that produced it, namely bit `perm.indexOf k` of
`flip`. -/
def invflip (dim : ℕ) (flip : ℕ) (perm : List ℕ) : ℕ :=
  natFromBits ((List.range dim).map (fun k => flip / 2 ^ (perm.indexOf k) % 2))

/-- The list of squared distances over all unordered pairs of `l`. -/
def dlist (l : List Point) : List ℤ :=
  (pairsList l).map (fun s => distance_squared s.1 s.2)

/-! ### The counting loop computes binomial coefficients (C3) -/

/-- The state of the `numpositions` loop after `n` of the `ncounters`
iterations, starting from `total = 1, choices = m`: it holds the binomial
coefficient `C(m, n)` and the remaining choice count `m - n`. -/
lemma numpositions_loop (m : ℕ) :
    ∀ n : ℕ, n ≤ m →
      (List.range n).foldl
        (fun st i => ((st.1 * st.2).fdiv ((i : ℤ) + 1), st.2 - 1))
        (1, (m : ℤ)) = ((m.choose n : ℤ), (m : ℤ) - n) := by
  intro n
  induction n with
  | zero => simp
  | succ n ih =>
    intro hn
    rw [List.range_succ, List.foldl_append, ih (Nat.le_of_succ_le hn)]
    have hlt : n < m := hn
    have hsub : (m : ℤ) - n = ((m - n : ℕ) : ℤ) := by
      rw [Nat.cast_sub hlt.le]
    have hkey : (m.choose n : ℤ) * ((m : ℤ) - n) = (m.choose (n + 1) : ℤ) * ((n : ℤ) + 1) := by
      rw [hsub]
      exact_mod_cast (Nat.choose_succ_right_eq m n).symm
    have hne : ((n : ℤ) + 1) ≠ 0 := by omega
    simp only [List.foldl_cons, List.foldl_nil]
    rw [hkey, Int.mul_fdiv_cancel _ hne, Prod.mk.injEq]
    exact ⟨rfl, by push_cast; ring⟩

/-- Same loop, with the exactness flag: every division is exact, so the
flag stays `true`. -/
lemma numpositionsExact_loop (m : ℕ) :
    ∀ n : ℕ, n ≤ m →
      (List.range n).foldl
        (fun st i =>
          ((st.1 * st.2.1).fdiv ((i : ℤ) + 1), st.2.1 - 1,
            st.2.2 && ((st.1 * st.2.1).fmod ((i : ℤ) + 1) == 0)))
        (1, (m : ℤ), true) = ((m.choose n : ℤ), (m : ℤ) - n, true) := by
  intro n
  induction n with
  | zero => simp
  | succ n ih =>
    intro hn
    rw [List.range_succ, List.foldl_append, ih (Nat.le_of_succ_le hn)]
    have hlt : n < m := hn
    have hsub : (m : ℤ) - n = ((m - n : ℕ) : ℤ) := by
      rw [Nat.cast_sub hlt.le]
    have hkey : (m.choose n : ℤ) * ((m : ℤ) - n) = (m.choose (n + 1) : ℤ) * ((n : ℤ) + 1) := by
      rw [hsub]
      exact_mod_cast (Nat.choose_succ_right_eq m n).symm
    have hne : ((n : ℤ) + 1) ≠ 0 := by omega
    simp only [List.foldl_cons, List.foldl_nil]
    rw [hkey, Int.mul_fdiv_cancel _ hne, Prod.mk.injEq, Prod.mk.injEq]
    refine ⟨rfl, by push_cast; ring, ?_⟩
    rw [Int.fmod_def, Int.mul_fdiv_cancel _ hne]
    simp [mul_comm]

/-- `numpositions` is exactly the binomial coefficient. -/
lemma numpositions_eq_choose (size : Size) (n : ℕ) (hn : n ≤ size.width ^ size.dim) :
    numpositions size n = ((size.width ^ size.dim).choose n : ℤ) := by
  unfold numpositions
  rw [show ((size.width : ℤ) ^ size.dim) = ((size.width ^ size.dim : ℕ) : ℤ) by push_cast; rfl,
    numpositions_loop _ n hn]

/-- every division in the `numpositions` loop is exact. -/
lemma numpositionsExact_true (size : Size) (n : ℕ) (hn : n ≤ size.width ^ size.dim) :
    numpositionsExact size n = true := by
  unfold numpositionsExact
  rw [show ((size.width : ℤ) ^ size.dim) = ((size.width ^ size.dim : ℕ) : ℤ) by push_cast; rfl,
    numpositionsExact_loop _ n hn]

/-! ### Candidate enumeration (C6) -/

/-- `combinationsList l n` has `C(l.length, n)` elements. -/
lemma combinationsList_length :
    ∀ (l : List α) (n : ℕ), (combinationsList l n).length = l.length.choose n := by
  intro l
  induction l with
  | nil =>
    intro n
    cases n <;> simp [combinationsList]
  | cons x xs ih =>
    intro n
    cases n with
    | zero => simp [combinationsList]
    | succ n =>
      simp [combinationsList, ih, Nat.choose_succ_succ]

/-- Membership in `combinationsList l n`: exactly the length-`n`
subsequences of `l`. -/
lemma mem_combinationsList :
    ∀ (l : List α) (n : ℕ) (c : List α),
      c ∈ combinationsList l n ↔ c.Sublist l ∧ c.length = n := by
  intro l
  induction l with
  | nil =>
    intro n c
    cases n with
    | zero =>
      simp only [combinationsList, List.mem_singleton, List.sublist_nil]
      constructor
      · rintro rfl; simp
      · rintro ⟨rfl, -⟩; rfl
    | succ n =>
      simp only [combinationsList, List.not_mem_nil, false_iff, not_and, List.sublist_nil]
      rintro rfl
      simp
  | cons x xs ih =>
    intro n c
    cases n with
    | zero =>
      simp only [combinationsList, List.mem_singleton]
      constructor
      · rintro rfl; simp
      · rintro ⟨-, hc⟩; exact List.eq_nil_of_length_eq_zero hc
    | succ n =>
      simp only [combinationsList, List.mem_append, List.mem_map, ih]
      constructor
      · rintro (⟨c', ⟨hsub, hlen⟩, rfl⟩ | ⟨hsub, hlen⟩)
        · exact ⟨List.cons_sublist_cons.2 hsub, by simp [hlen]⟩
        · exact ⟨hsub.cons x, hlen⟩
      · rintro ⟨hsub, hlen⟩
        rcases List.sublist_cons_iff.1 hsub with h | ⟨r, rfl, hr⟩
        · exact Or.inr ⟨h, hlen⟩
        · exact Or.inl ⟨r, ⟨hr, by simpa using hlen⟩, rfl⟩

/-- `combinationsList` of a duplicate-free list is duplicate-free. -/
lemma combinationsList_nodup :
    ∀ (l : List α), l.Nodup → ∀ n : ℕ, (combinationsList l n).Nodup := by
  intro l
  induction l with
  | nil =>
    intro _ n
    cases n <;> simp [combinationsList]
  | cons x xs ih =>
    intro hnd n
    have hx : x ∉ xs := (List.nodup_cons.1 hnd).1
    have hxs : xs.Nodup := (List.nodup_cons.1 hnd).2
    cases n with
    | zero => simp [combinationsList]
    | succ n =>
      refine List.Nodup.append ?_ (ih hxs (n + 1)) ?_
      · exact (ih hxs n).map (fun a b h => by injection h)
      · intro c hc hc'
        rcases List.mem_map.1 hc with ⟨c', -, rfl⟩
        have hsub : (x :: c').Sublist xs := (mem_combinationsList xs (n + 1) _).1 hc' |>.1
        exact hx (hsub.subset (List.mem_cons_self x c'))

/-- The grid has `width ^ dim` points. -/
lemma pointsAux_length : ∀ (d w : ℕ), (pointsAux d w).length = w ^ d := by
  intro d
  induction d with
  | zero => intro w; simp [pointsAux]
  | succ d ih =>
    intro w
    simp only [pointsAux, List.length_flatMap, Function.comp_def, List.length_map, ih]
    rw [List.map_const', List.sum_replicate, smul_eq_mul, List.length_range, pow_succ,
      Nat.mul_comm]

/-- Membership in the generated point list: tuples of `d` coordinates in
`[0, w)`. -/
lemma mem_pointsAux :
    ∀ (d w : ℕ) (p : Point),
      p ∈ pointsAux d w ↔ p.length = d ∧ ∀ x ∈ p, 0 ≤ x ∧ x < (w : ℤ) := by
  intro d
  induction d with
  | zero =>
    intro w p
    simp only [pointsAux, List.mem_singleton, List.length_eq_zero]
    constructor
    · rintro rfl; simp
    · rintro ⟨rfl, -⟩; rfl
  | succ d ih =>
    intro w p
    simp only [pointsAux, List.mem_flatMap, List.mem_map, List.mem_range]
    constructor
    · rintro ⟨x, hx, rest, hrest, rfl⟩
      rcases (ih w rest).1 hrest with ⟨hlen, hmem⟩
      refine ⟨by simp [hlen], ?_⟩
      intro y hy
      rcases List.mem_cons.1 hy with rfl | hy
      · constructor
        · exact Int.natCast_nonneg x
        · exact_mod_cast hx
      · exact hmem y hy
    · rintro ⟨hlen, hmem⟩
      cases p with
      | nil => simp at hlen
      | cons y rest =>
        have hy := hmem y (List.mem_cons_self y rest)
        refine ⟨y.toNat, ?_, rest, ?_, ?_⟩
        · have : (y.toNat : ℤ) < (w : ℤ) := by rw [Int.toNat_of_nonneg hy.1]; exact hy.2
          exact_mod_cast this
        · refine (ih w rest).2 ⟨by simpa using hlen, ?_⟩
          intro z hz
          exact hmem z (List.mem_cons_of_mem y hz)
        · rw [Int.toNat_of_nonneg hy.1]

/-- The generated point list has no duplicates. -/
lemma pointsAux_nodup : ∀ (d w : ℕ), (pointsAux d w).Nodup := by
  intro d
  induction d with
  | zero => intro w; simp [pointsAux]
  | succ d ih =>
    intro w
    rw [pointsAux, List.nodup_flatMap]
    refine ⟨fun x _ => (ih w).map (fun a b h => by injection h), ?_⟩
    refine (List.nodup_range w).pairwise_of_forall_ne ?_
    intro x hx y hy hxy
    simp only [Function.onFun, List.disjoint_left, List.mem_map]
    rintro p ⟨rest, -, rfl⟩ ⟨rest', -, heq⟩
    injection heq with h1 h2
    exact hxy (by exact_mod_cast h1.symm)

/-! ### The uniqueness filter (C5) -/

/-- The accumulator loop succeeds iff the incoming distances are pairwise
distinct and none of them was already seen. -/
lemma hudAux_eq_true_iff :
    ∀ (ps : List (Point × Point)) (seen : List ℤ),
      hudAux ps seen = true ↔
        (ps.map (fun s => distance_squared s.1 s.2)).Nodup ∧
          ∀ d ∈ ps.map (fun s => distance_squared s.1 s.2), d ∉ seen := by
  intro ps
  induction ps with
  | nil => simp [hudAux]
  | cons pq rest ih =>
    intro seen
    obtain ⟨p, q⟩ := pq
    by_cases hd : distance_squared p q ∈ seen
    · simp only [hudAux, if_pos hd]
      simp only [List.map_cons, List.nodup_cons, List.mem_cons]
      constructor
      · intro h; cases h
      · rintro ⟨-, hall⟩
        exact absurd hd (hall _ (Or.inl rfl))
    · simp only [hudAux, if_neg hd, ih, List.map_cons, List.nodup_cons, List.mem_cons]
      constructor
      · rintro ⟨hnd, hall⟩
        refine ⟨⟨?_, hnd⟩, ?_⟩
        · intro hmem
          exact (hall _ hmem) (Or.inl rfl)
        · rintro d (rfl | hmem)
          · exact hd
          · intro hseen
            exact (hall d hmem) (Or.inr hseen)
      · rintro ⟨⟨hnotin, hnd⟩, hall⟩
        refine ⟨hnd, ?_⟩
        rintro d hmem (rfl | hseen)
        · exact hnotin hmem
        · exact (hall d (Or.inr hmem)) hseen

/-- `hasuniquedistance` holds iff the multiset of pairwise squared
distances has no repeats. -/
lemma hasuniquedistance_iff (pieces : List Point) :
    hasuniquedistance pieces = true ↔ (dlist pieces).Nodup := by
  unfold hasuniquedistance dlist
  rw [hudAux_eq_true_iff]
  simp

/-- One unfolding step of `distance_squared`. -/
lemma distance_squared_cons (x y : ℤ) (xs ys : List ℤ) :
    distance_squared (x :: xs) (y :: ys) = (x - y) ^ 2 + distance_squared xs ys := by
  simp [distance_squared]

/-- squared distance is symmetric. -/
lemma distance_squared_comm : ∀ (p q : Point), distance_squared p q = distance_squared q p := by
  intro p
  induction p with
  | nil => intro q; cases q <;> simp [distance_squared]
  | cons x xs ih =>
    intro q
    cases q with
    | nil => simp [distance_squared]
    | cons y ys =>
      rw [distance_squared_cons, distance_squared_cons, ih,
        show (x - y) ^ 2 = (y - x) ^ 2 by ring]

/-- One unfolding step of `dlist`. -/
lemma dlist_cons (x : Point) (l : List Point) :
    dlist (x :: l) = l.map (fun y => distance_squared x y) ++ dlist l := by
  simp [dlist, pairsList]

/-- The multiset of pairwise distances is invariant under reordering the
points. -/
lemma dlist_perm {l l' : List Point} (h : l.Perm l') : (dlist l).Perm (dlist l') := by
  induction h with
  | nil => rfl
  | cons x h ih =>
    rw [dlist_cons, dlist_cons]
    exact (h.map _).append ih
  | swap x y l =>
    have hshuffle : ∀ (A B C : List ℤ), (A ++ (B ++ C)).Perm (B ++ (A ++ C)) := by
      intro A B C
      rw [← List.append_assoc, ← List.append_assoc]
      exact List.perm_append_comm.append_right C
    rw [dlist_cons, dlist_cons, dlist_cons, dlist_cons, List.map_cons, List.map_cons]
    simp only [List.cons_append]
    rw [distance_squared_comm y x]
    exact (hshuffle _ _ _).cons _
  | trans h1 h2 ih1 ih2 => exact ih1.trans ih2

/-- The verdict of `hasuniquedistance` does not depend on the iteration
order of the point set. -/
lemma hasuniquedistance_perm {l l' : List Point} (h : l.Perm l') :
    hasuniquedistance l = hasuniquedistance l' := by
  have hiff : (dlist l).Nodup ↔ (dlist l').Nodup := (dlist_perm h).nodup_iff
  rw [Bool.eq_iff_iff, hasuniquedistance_iff, hasuniquedistance_iff]
  exact hiff

/-! ### The symmetry transforms (C7, C8) -/

/-- Reflecting a coordinate twice with the same bit is the identity. -/
lemma doflip_doflip (size : Size) (x : ℤ) (b : ℕ) :
    doflip size (doflip size x b) b = x := by
  unfold doflip
  by_cases hb : b ≠ 0
  · simp only [if_pos hb]; ring
  · simp only [if_neg hb]

/-- A rotated point has one coordinate per permutation entry. -/
lemma rotatepoint_length (size : Size) :
    ∀ (perm : List ℕ) (flip : ℕ) (p : Point),
      (rotatepoint size flip perm p).length = perm.length := by
  intro perm
  induction perm with
  | nil => intro flip p; rfl
  | cons i rest ih => intro flip p; simp [rotatepoint, ih]

/-- Coordinate `j` of the rotated point: coordinate `perm[j]` of `p`,
reflected according to bit `j` of `flip`. -/
lemma rotatepoint_getD (size : Size) :
    ∀ (perm : List ℕ) (flip : ℕ) (p : Point) (j : ℕ), j < perm.length →
      (rotatepoint size flip perm p).getD j 0 =
        doflip size (p.getD (perm.getD j 0) 0) (flip / 2 ^ j % 2) := by
  intro perm
  induction perm with
  | nil => intro flip p j hj; simp at hj
  | cons i rest ih =>
    intro flip p j hj
    cases j with
    | zero => simp [rotatepoint]
    | succ j =>
      have hj' : j < rest.length := by simpa using hj
      simp only [rotatepoint, List.getD_cons_succ]
      rw [ih (flip / 2) p j hj']
      congr 2
      rw [Nat.div_div_eq_div_mul, show 2 * 2 ^ j = 2 ^ (j + 1) by rw [pow_succ, Nat.mul_comm]]

/-- `natFromBits` stays below `2 ^ length`. -/
lemma natFromBits_lt : ∀ (bs : List ℕ), natFromBits bs < 2 ^ bs.length := by
  intro bs
  induction bs with
  | nil => simp [natFromBits]
  | cons b rest ih =>
    have hb : b % 2 < 2 := Nat.mod_lt _ (by norm_num)
    simp only [natFromBits, List.length_cons, pow_succ]
    omega

/-- Bit `j` of `natFromBits bs` is the `j`-th entry of `bs` (mod 2). -/
lemma natFromBits_getD : ∀ (bs : List ℕ) (j : ℕ),
    natFromBits bs / 2 ^ j % 2 = bs.getD j 0 % 2 := by
  intro bs
  induction bs with
  | nil => intro j; simp [natFromBits]
  | cons b rest ih =>
    intro j
    cases j with
    | zero =>
      simp only [natFromBits, pow_zero, Nat.div_one, List.getD_cons_zero]
      omega
    | succ j =>
      have hsplit : (b % 2 + 2 * natFromBits rest) / 2 = natFromBits rest := by omega
      simp only [natFromBits, List.getD_cons_succ]
      rw [show 2 ^ (j + 1) = 2 * 2 ^ j by rw [pow_succ, Nat.mul_comm],
        ← Nat.div_div_eq_div_mul, hsplit, ih]

section PermFacts

variable {dim : ℕ} {perm : List ℕ}

/-- A permutation of the axis list has length `dim`. -/
lemma perm_length (hperm : perm.Perm (List.range dim)) : perm.length = dim := by
  simpa using hperm.length_eq

/-- Membership in a permutation of the axis list. -/
lemma perm_mem (hperm : perm.Perm (List.range dim)) (k : ℕ) : k ∈ perm ↔ k < dim := by
  rw [hperm.mem_iff, List.mem_range]

/-- `indexOf` into the permutation is a valid position. -/
lemma perm_indexOf_lt (hperm : perm.Perm (List.range dim)) {k : ℕ} (hk : k < dim) :
    perm.indexOf k < perm.length :=
  List.indexOf_lt_length.2 ((perm_mem hperm k).2 hk)

/-- Reading the permutation back at `indexOf k` recovers `k`. -/
lemma perm_getD_indexOf (hperm : perm.Perm (List.range dim)) {k : ℕ} (hk : k < dim) :
    perm.getD (perm.indexOf k) 0 = k := by
  rw [List.getD_eq_getElem _ _ (perm_indexOf_lt hperm hk)]
  exact List.getElem_indexOf _

/-- The inverse permutation is again a permutation of the axis list. -/
lemma invperm_perm (hperm : perm.Perm (List.range dim)) :
    (invperm dim perm).Perm (List.range dim) := by
  have hlen : perm.length = dim := perm_length hperm
  have hnd : (invperm dim perm).Nodup := by
    refine (List.nodup_range dim).map_on ?_
    intro k hk k' hk' hidx
    have h1 := perm_getD_indexOf hperm (List.mem_range.1 hk)
    have h2 := perm_getD_indexOf hperm (List.mem_range.1 hk')
    rw [← h1, ← h2, hidx]
  have hsub : invperm dim perm ⊆ List.range dim := by
    intro j hj
    rcases List.mem_map.1 hj with ⟨k, hk, rfl⟩
    exact List.mem_range.2 (hlen ▸ perm_indexOf_lt hperm (List.mem_range.1 hk))
  have hlen2 : (invperm dim perm).length = dim := by simp [invperm]
  exact (hnd.subperm hsub).perm_of_length_le (by simp [hlen2])

/-- `invperm` evaluated at a position `j < dim`. -/
lemma invperm_getD {j : ℕ} (hj : j < dim) :
    (invperm dim perm).getD j 0 = perm.indexOf j := by
  unfold invperm
  rw [List.getD_eq_getElem _ _ (by simpa using hj)]
  simp

/-- `invflip` stays in the group range. -/
lemma invflip_lt (dim flip : ℕ) (perm : List ℕ) : invflip dim flip perm < 2 ^ dim := by
  have := natFromBits_lt ((List.range dim).map (fun k => flip / 2 ^ (perm.indexOf k) % 2))
  simpa [invflip] using this

/-- Bit `j` of `invflip` is bit `perm.indexOf j` of `flip`. -/
lemma invflip_getD (dim flip : ℕ) (perm : List ℕ) {j : ℕ} (hj : j < dim) :
    invflip dim flip perm / 2 ^ j % 2 = flip / 2 ^ (perm.indexOf j) % 2 := by
  unfold invflip
  rw [natFromBits_getD]
  rw [List.getD_eq_getElem _ _ (by simpa using hj)]
  simp [Nat.mod_mod_of_dvd]

/-- Round trip on a single point: applying the inverse transform after the
transform recovers any `dim`-tuple. -/
lemma rotatepoint_roundtrip (size : Size) (flip : ℕ) (perm : List ℕ) (p : Point)
    (hperm : perm.Perm (List.range size.dim)) (hp : p.length = size.dim) :
    rotatepoint size (invflip size.dim flip perm) (invperm size.dim perm)
      (rotatepoint size flip perm p) = p := by
  have hlenperm : perm.length = size.dim := perm_length hperm
  have hleninv : (invperm size.dim perm).length = size.dim := by simp [invperm]
  have hlen : (rotatepoint size (invflip size.dim flip perm) (invperm size.dim perm)
      (rotatepoint size flip perm p)).length = p.length := by
    rw [rotatepoint_length, hleninv, hp]
  refine List.ext_getElem hlen ?_
  intro j hj1 hj2
  have hjd : j < size.dim := by rw [← hp]; exact hj2
  rw [← List.getD_eq_getElem _ 0 hj1, ← List.getD_eq_getElem _ 0 hj2]
  rw [rotatepoint_getD _ _ _ _ j (by rw [hleninv]; exact hjd)]
  rw [invperm_getD hjd, invflip_getD _ _ _ hjd]
  rw [rotatepoint_getD _ _ _ _ (perm.indexOf j) (perm_indexOf_lt hperm hjd)]
  rw [perm_getD_indexOf hperm hjd]
  exact doflip_doflip size _ _

end PermFacts

/-- Every coordinate of a rotated point is a reflected coordinate of the
original point, at an axis drawn from `perm`. -/
lemma mem_rotatepoint (size : Size) :
    ∀ (perm : List ℕ) (flip : ℕ) (p : Point) (y : ℤ),
      y ∈ rotatepoint size flip perm p →
        ∃ i ∈ perm, ∃ b, y = doflip size (p.getD i 0) b := by
  intro perm
  induction perm with
  | nil => intro flip p y hy; simp [rotatepoint] at hy
  | cons i rest ih =>
    intro flip p y hy
    rcases List.mem_cons.1 hy with rfl | hy
    · exact ⟨i, List.mem_cons_self i rest, flip % 2, rfl⟩
    · rcases ih (flip / 2) p y hy with ⟨i', hi', b, hb⟩
      exact ⟨i', List.mem_cons_of_mem i hi', b, hb⟩

/-- Reflection keeps a coordinate inside `[0, width)`. -/
lemma doflip_bounds (size : Size) (x : ℤ) (b : ℕ)
    (hx : 0 ≤ x ∧ x < (size.width : ℤ)) :
    0 ≤ doflip size x b ∧ doflip size x b < (size.width : ℤ) := by
  unfold doflip
  by_cases hb : b ≠ 0
  · simp only [if_pos hb]; omega
  · simp only [if_neg hb]; exact hx

/-- Rotating a grid point yields a grid point. -/
lemma rotatepoint_inGrid (size : Size) (flip : ℕ) (perm : List ℕ) (p : Point)
    (hperm : perm.Perm (List.range size.dim)) (hp : inGrid size p) :
    inGrid size (rotatepoint size flip perm p) := by
  obtain ⟨hlen, hbounds⟩ := hp
  constructor
  · rw [rotatepoint_length, perm_length hperm]
  · intro y hy
    rcases mem_rotatepoint size perm flip p y hy with ⟨i, hi, b, rfl⟩
    have hid : i < size.dim := (perm_mem hperm i).1 hi
    have hip : i < p.length := by rw [hlen]; exact hid
    have hmem : p.getD i 0 ∈ p := by
      rw [List.getD_eq_getElem _ _ hip]
      exact List.getElem_mem hip
    exact doflip_bounds size _ b (hbounds _ hmem)

/-- The round-trip law on whole arrangements: the inverse transform undoes
the transform on any arrangement of grid points. -/
lemma rotatearragement_roundtrip (size : Size) (flip : ℕ) (perm : List ℕ)
    (a : Finset Point) (hperm : perm.Perm (List.range size.dim))
    (ha : ∀ p ∈ a, inGrid size p) :
    rotatearragement size (invflip size.dim flip perm) (invperm size.dim perm)
      (rotatearragement size flip perm a) = a := by
  unfold rotatearragement
  rw [Finset.image_image]
  have hcongr : Finset.image
      (rotatepoint size (invflip size.dim flip perm) (invperm size.dim perm) ∘
        rotatepoint size flip perm) a = Finset.image id a := by
    refine Finset.image_congr ?_
    intro p hp
    exact rotatepoint_roundtrip size flip perm p hperm (ha p hp).1
  rw [hcongr, Finset.image_id]

/-- Rotation does not change the number of points in an arrangement. -/
lemma rotatearragement_card (size : Size) (flip : ℕ) (perm : List ℕ)
    (a : Finset Point) (hperm : perm.Perm (List.range size.dim))
    (ha : ∀ p ∈ a, inGrid size p) :
    (rotatearragement size flip perm a).card = a.card := by
  refine Finset.card_image_of_injOn ?_
  intro p hp q hq heq
  have h1 := rotatepoint_roundtrip size flip perm p hperm (ha p hp).1
  have h2 := rotatepoint_roundtrip size flip perm q hperm (ha q hq).1
  rw [← h1, ← h2, heq]

/-- `generatepoints` lists exactly the grid points. -/
lemma mem_generatepoints (size : Size) (p : Point) :
    p ∈ generatepoints size ↔ inGrid size p :=
  mem_pointsAux size.dim size.width p

/-- `istransformof` is the existence of a matching transform in the
`2^dim · dim!` group. -/
lemma istransformof_iff (size : Size) (a b : Finset Point) :
    istransformof size a b = true ↔
      ∃ flip < 2 ^ size.dim, ∃ perm : List ℕ,
        perm.Perm (List.range size.dim) ∧ rotatearragement size flip perm a = b := by
  unfold istransformof
  simp only [List.any_eq_true, List.mem_range, List.mem_permutations',
    decide_eq_true_eq]

/-- Rotating with `flip = 0` and the identity permutation is the identity
on `dim`-tuples. -/
lemma rotatepoint_id (size : Size) (p : Point) (hp : p.length = size.dim) :
    rotatepoint size 0 (List.range size.dim) p = p := by
  have hlen : (rotatepoint size 0 (List.range size.dim) p).length = p.length := by
    rw [rotatepoint_length, List.length_range, hp]
  refine List.ext_getElem hlen ?_
  intro j hj1 hj2
  have hjd : j < size.dim := by rw [← hp]; exact hj2
  have hr : (List.range size.dim).getD j 0 = j := by
    rw [List.getD_eq_getElem _ _ (by simpa using hjd)]
    exact List.getElem_range _ _
  rw [← List.getD_eq_getElem _ 0 hj1, ← List.getD_eq_getElem _ 0 hj2,
    rotatepoint_getD _ _ _ _ j (by simpa using hjd), hr]
  simp [doflip, Nat.zero_div]

/-- The identity transform maps any arrangement of `dim`-tuples to itself. -/
lemma rotatearragement_id (size : Size) (a : Finset Point)
    (ha : ∀ p ∈ a, p.length = size.dim) :
    rotatearragement size 0 (List.range size.dim) a = a := by
  unfold rotatearragement
  have hcongr : Finset.image (rotatepoint size 0 (List.range size.dim)) a =
      Finset.image id a := by
    refine Finset.image_congr ?_
    intro p hp
    exact rotatepoint_id size p (ha p hp)
  rw [hcongr, Finset.image_id]

/-! ### The solution-list invariant (C2) -/

/-- The invariant maintained by `solvegrid`: no later entry is a transform
of an earlier entry, and every entry passes the uniqueness filter (however
its points are enumerated). -/
def solveInv (size : Size) (sols : List (Finset Point)) : Prop :=
  List.Pairwise (fun a b => istransformof size b a = false) sols ∧
    ∀ s ∈ sols, ∀ l : List Point, l.Nodup → l.toFinset = s → hasuniquedistance l = true

/-- One solver step preserves the invariant. -/
lemma solvestep_inv (size : Size) (sols : List (Finset Point)) (pieces : List Point)
    (hpieces : pieces.Nodup) (h : solveInv size sols) :
    solveInv size (solvestep size sols pieces) := by
  unfold solvestep
  by_cases h1 : hasuniquedistance pieces
  · by_cases h2 : containstransform size sols pieces.toFinset
    · simpa [h1, h2] using h
    · simp only [h1, if_true, h2, if_false, Bool.false_eq_true]
      have h2f : containstransform size sols pieces.toFinset = false := by
        simpa using h2
      have h2' : ∀ b ∈ sols, istransformof size pieces.toFinset b = false := by
        intro b hb
        have hall := List.any_eq_false.1 (by simpa [containstransform] using h2f)
        have := hall b hb
        simpa using this
      constructor
      · rw [List.pairwise_append]
        refine ⟨h.1, by simp, ?_⟩
        intro a ha b hb
        rw [List.mem_singleton.1 hb]
        exact h2' a ha
      · intro s hs l hnd hfin
        rcases List.mem_append.1 hs with hs | hs
        · exact h.2 s hs l hnd hfin
        · rw [List.mem_singleton.1 hs] at hfin
          have hp : l.Perm pieces :=
            List.perm_of_nodup_nodup_toFinset_eq hnd hpieces hfin
          rw [hasuniquedistance_perm hp]
          exact h1
  · simpa [h1] using h

/-- Folding the solver step over any candidate list of duplicate-free
arrangements preserves the invariant. -/
lemma solveFold_inv (size : Size) :
    ∀ (cands : List (List Point)) (sols : List (Finset Point)),
      (∀ p ∈ cands, p.Nodup) → solveInv size sols →
      solveInv size (cands.foldl (solvestep size) sols) := by
  intro cands
  induction cands with
  | nil => intro sols _ h; exact h
  | cons c rest ih =>
    intro sols hnd h
    rw [List.foldl_cons]
    exact ih _ (fun p hp => hnd p (List.mem_cons_of_mem c hp))
      (solvestep_inv size sols c (hnd c (List.mem_cons_self c rest)) h)

/-- Every candidate arrangement is a duplicate-free list of grid points. -/
lemma generatearrangements_mem_nodup (size : Size) (n : ℕ) (p : List Point)
    (hp : p ∈ generatearrangements size n) : p.Nodup :=
  ((mem_combinationsList _ n p).1 hp).1.nodup (pointsAux_nodup size.dim size.width)

/-! ### Auxiliary facts for the claims -/

/-- `distance_squared` sums over the common prefix of the two coordinate
tuples: `zip` truncates to the shorter one. -/
lemma distance_squared_common :
    ∀ (p q : Point),
      distance_squared p q =
        ((List.range (min p.length q.length)).map
          (fun i => (p.getD i 0 - q.getD i 0) ^ 2)).sum := by
  intro p
  induction p with
  | nil => intro q; simp [distance_squared]
  | cons x xs ih =>
    intro q
    cases q with
    | nil => simp [distance_squared]
    | cons y ys =>
      rw [distance_squared_cons, ih ys]
      simp [List.range_succ_eq_map, List.map_map, Function.comp_def, Nat.succ_min_succ]

/-! ### The claims -/

set_option maxRecDepth 1000000 in
/-- C1: for dimension 2, width 3 and 3 counters, `solvegrid` returns
exactly 5 solutions, and `numpositions` reports 84 raw arrangements. -/
theorem C1_solvegrid_3x3 :
    (solvegrid ⟨2, 3⟩ 3).length = 5 ∧ numpositions ⟨2, 3⟩ 3 = 84 := by
  constructor
  · decide
  · decide

/-- C2: for valid parameters, after processing any prefix of the candidate
list (hence after every append, and for the full list, i.e. for
`solvegrid` itself) the solution list contains no entry that is a
symmetry transform of an earlier entry, and every entry passes
`hasuniquedistance` under any enumeration of its points. -/
theorem C2_solvegrid_invariant (size : Size) (n : ℕ)
    (h1 : 1 ≤ n) (h2 : n ≤ size.width ^ size.dim)
    (cands : List (List Point)) (hpref : cands <+: generatearrangements size n) :
    List.Pairwise (fun a b => istransformof size b a = false)
        (cands.foldl (solvestep size) []) ∧
      (∀ s ∈ cands.foldl (solvestep size) [], ∀ l : List Point,
        l.Nodup → l.toFinset = s → hasuniquedistance l = true) ∧
      solvegrid size n = (generatearrangements size n).foldl (solvestep size) [] := by
  obtain ⟨t, ht⟩ := hpref
  have hmem : ∀ p ∈ cands, p.Nodup := by
    intro p hp
    refine generatearrangements_mem_nodup size n p ?_
    rw [← ht]
    exact List.mem_append_left t hp
  have hinv := solveFold_inv size cands [] hmem ⟨List.Pairwise.nil, by simp⟩
  exact ⟨hinv.1, hinv.2, rfl⟩

/-- C2 witness: the invariant instantiated on the full 2×2 grid search
with 2 counters. -/
theorem C2_solvegrid_invariant_witness :
    List.Pairwise (fun a b => istransformof ⟨2, 2⟩ b a = false)
        ((generatearrangements ⟨2, 2⟩ 2).foldl (solvestep ⟨2, 2⟩) []) ∧
      (∀ s ∈ (generatearrangements ⟨2, 2⟩ 2).foldl (solvestep ⟨2, 2⟩) [],
        ∀ l : List Point, l.Nodup → l.toFinset = s → hasuniquedistance l = true) ∧
      solvegrid ⟨2, 2⟩ 2 = (generatearrangements ⟨2, 2⟩ 2).foldl (solvestep ⟨2, 2⟩) [] :=
  C2_solvegrid_invariant ⟨2, 2⟩ 2 (by norm_num) (by norm_num)
    (generatearrangements ⟨2, 2⟩ 2) ⟨[], List.append_nil _⟩

/-- C3: for positive dimension, width and counter count `n ≤ width^dim`,
`numpositions` equals the binomial coefficient `C(width^dim, n)` exactly,
and every intermediate floor division in the loop is exact. -/
theorem C3_numpositions_binomial (d w n : ℕ)
    (hd : 0 < d) (hw : 0 < w) (hn : 0 < n) (hnm : n ≤ w ^ d) :
    numpositions ⟨d, w⟩ n = (((w ^ d).choose n : ℕ) : ℤ) ∧
      numpositionsExact ⟨d, w⟩ n = true :=
  ⟨numpositions_eq_choose ⟨d, w⟩ n hnm, numpositionsExact_true ⟨d, w⟩ n hnm⟩

/-- C3 witness: at dimension 2, width 3, 3 counters the count is
`C(9, 3) = 84` with all divisions exact. -/
theorem C3_numpositions_binomial_witness :
    (numpositions ⟨2, 3⟩ 3 = (((3 ^ 2).choose 3 : ℕ) : ℤ) ∧
      numpositionsExact ⟨2, 3⟩ 3 = true) ∧
      numpositions ⟨2, 3⟩ 3 = 84 :=
  ⟨C3_numpositions_binomial 2 3 3 (by norm_num) (by norm_num) (by norm_num) (by norm_num),
    by decide⟩

/-- C4: `istransformof size a b` is true iff some transform
`(flip < 2^dim, perm a permutation of the axes)` maps `a` exactly onto
`b`, and false otherwise. -/
theorem C4_istransformof_characterisation (size : Size) (a b : Finset Point) :
    istransformof size a b = true ↔
      ∃ flip < 2 ^ size.dim, ∃ perm : List ℕ,
        perm.Perm (List.range size.dim) ∧ rotatearragement size flip perm a = b :=
  istransformof_iff size a b

/-- C5 counterexample: the claim asserts `hasuniquedistance` returns true
on `{(0,2),(1,1),(2,2)}` with squared distances 2, 5, 1; in fact the
squared distances are 2, 4, 2 (a repeat), and the function returns false. -/
theorem C5_hasuniquedistance_counterexample :
    hasuniquedistance [[0, 2], [1, 1], [2, 2]] = false ∧
      dlist [[0, 2], [1, 1], [2, 2]] = [2, 4, 2] := by
  constructor
  · decide
  · decide

/-- C5 (amended): for a duplicate-free placement of at least two points of
equal dimension, `hasuniquedistance` is true iff the list of squared
distances over all unordered pairs has no repeated value; it returns false
on `{(0,0),(0,1),(1,0)}` (squared distances 1, 1, 2) and false on
`{(0,2),(1,1),(2,2)}` (squared distances 2, 4, 2). -/
theorem C5_hasuniquedistance_amended :
    (∀ (dim : ℕ) (pieces : List Point), pieces.Nodup → 2 ≤ pieces.length →
      (∀ p ∈ pieces, p.length = dim) →
      (hasuniquedistance pieces = true ↔ (dlist pieces).Nodup)) ∧
      hasuniquedistance [[0, 0], [0, 1], [1, 0]] = false ∧
      hasuniquedistance [[0, 2], [1, 1], [2, 2]] = false := by
  refine ⟨?_, by decide, by decide⟩
  intro dim pieces _ _ _
  exact hasuniquedistance_iff pieces

/-- C5 witness: the equivalence instantiated on a concrete two-point
placement. -/
theorem C5_hasuniquedistance_amended_witness :
    hasuniquedistance [[0, 0], [1, 1]] = true ↔ (dlist [[0, 0], [1, 1]]).Nodup :=
  C5_hasuniquedistance_amended.1 2 [[0, 0], [1, 1]] (by decide) (by decide) (by decide)

/-- C6: `generatearrangements` produces exactly `numpositions` placements,
each a duplicate-free `n`-element selection of grid points, with no
placement produced twice and none skipped. -/
theorem C6_generatearrangements_complete (d w n : ℕ)
    (hd : 0 < d) (hw : 0 < w) (hn : n ≤ w ^ d) :
    ((generatearrangements ⟨d, w⟩ n).length : ℤ) = numpositions ⟨d, w⟩ n ∧
      (generatearrangements ⟨d, w⟩ n).Nodup ∧
      (∀ a ∈ generatearrangements ⟨d, w⟩ n,
        a.length = n ∧ a.Nodup ∧ ∀ p ∈ a, p ∈ generatepoints ⟨d, w⟩) ∧
      ∀ a : List Point, a.Sublist (generatepoints ⟨d, w⟩) → a.length = n →
        a ∈ generatearrangements ⟨d, w⟩ n := by
  have hlen : (generatepoints ⟨d, w⟩).length = w ^ d := pointsAux_length d w
  refine ⟨?_, ?_, ?_, ?_⟩
  · rw [numpositions_eq_choose ⟨d, w⟩ n hn]
    unfold generatearrangements
    rw [combinationsList_length, hlen]
  · exact combinationsList_nodup _ (pointsAux_nodup d w) n
  · intro a ha
    obtain ⟨hsub, halen⟩ := (mem_combinationsList _ n a).1 ha
    exact ⟨halen, hsub.nodup (pointsAux_nodup d w), fun p hp => hsub.subset hp⟩
  · intro a hsub halen
    exact (mem_combinationsList _ n a).2 ⟨hsub, halen⟩

/-- C6 witness: for dimension 2, width 3, 3 counters the enumeration is
duplicate-free and contains exactly 84 placements. -/
theorem C6_generatearrangements_complete_witness :
    (((generatearrangements ⟨2, 3⟩ 3).length : ℤ) = numpositions ⟨2, 3⟩ 3 ∧
      (generatearrangements ⟨2, 3⟩ 3).Nodup ∧
      (∀ a ∈ generatearrangements ⟨2, 3⟩ 3,
        a.length = 3 ∧ a.Nodup ∧ ∀ p ∈ a, p ∈ generatepoints ⟨2, 3⟩) ∧
      ∀ a : List Point, a.Sublist (generatepoints ⟨2, 3⟩) → a.length = 3 →
        a ∈ generatearrangements ⟨2, 3⟩ 3) ∧
      (generatearrangements ⟨2, 3⟩ 3).length = 84 :=
  ⟨C6_generatearrangements_complete 2 3 3 (by norm_num) (by norm_num) (by norm_num),
    by decide⟩

/-- C7: every transform `(flip, perm)` has matched inverse parameters in
the group — witnessed explicitly by `invflip` and `invperm` — whose
application undoes the transform on every arrangement of grid points
(round-trip law). -/
theorem C7_transform_roundtrip (size : Size) (flip : ℕ) (perm : List ℕ) (a : Finset Point)
    (hflip : flip < 2 ^ size.dim) (hperm : perm.Perm (List.range size.dim))
    (ha : ∀ p ∈ a, inGrid size p) :
    invflip size.dim flip perm < 2 ^ size.dim ∧
      (invperm size.dim perm).Perm (List.range size.dim) ∧
      rotatearragement size (invflip size.dim flip perm) (invperm size.dim perm)
        (rotatearragement size flip perm a) = a :=
  ⟨invflip_lt size.dim flip perm, invperm_perm hperm,
    rotatearragement_roundtrip size flip perm a hperm ha⟩

/-- C7 witness: the round trip on a concrete 3×3 arrangement with
`flip = 1` and the axis swap. -/
theorem C7_transform_roundtrip_witness :
    invflip 2 1 [1, 0] < 2 ^ 2 ∧
      (invperm 2 [1, 0]).Perm (List.range 2) ∧
      rotatearragement ⟨2, 3⟩ (invflip 2 1 [1, 0]) (invperm 2 [1, 0])
        (rotatearragement ⟨2, 3⟩ 1 [1, 0] {[0, 0], [2, 1]}) = {[0, 0], [2, 1]} :=
  C7_transform_roundtrip ⟨2, 3⟩ 1 [1, 0] {[0, 0], [2, 1]} (by norm_num) (by decide)
    (by decide)

/-- C8: applying any group transform to an arrangement of grid points
yields an arrangement of the same cardinality whose points still lie on
the grid. -/
theorem C8_transform_bijection (size : Size) (flip : ℕ) (perm : List ℕ) (a : Finset Point)
    (hflip : flip < 2 ^ size.dim) (hperm : perm.Perm (List.range size.dim))
    (ha : a ⊆ (generatepoints size).toFinset) :
    (rotatearragement size flip perm a).card = a.card ∧
      rotatearragement size flip perm a ⊆ (generatepoints size).toFinset := by
  have ha' : ∀ p ∈ a, inGrid size p := by
    intro p hp
    exact (mem_generatepoints size p).1 (List.mem_toFinset.1 (ha hp))
  constructor
  · exact rotatearragement_card size flip perm a hperm ha'
  · intro q hq
    rcases Finset.mem_image.1 hq with ⟨p, hp, rfl⟩
    exact List.mem_toFinset.2
      ((mem_generatepoints size _).2 (rotatepoint_inGrid size flip perm p hperm (ha' p hp)))

/-- C8 witness: a concrete transform of a 2-point arrangement on the 3×3
grid preserves cardinality and grid membership. -/
theorem C8_transform_bijection_witness :
    (rotatearragement ⟨2, 3⟩ 3 [1, 0] {[0, 0], [1, 2]}).card = ({[0, 0], [1, 2]} : Finset Point).card ∧
      rotatearragement ⟨2, 3⟩ 3 [1, 0] {[0, 0], [1, 2]} ⊆ (generatepoints ⟨2, 3⟩).toFinset :=
  C8_transform_bijection ⟨2, 3⟩ 3 [1, 0] {[0, 0], [1, 2]} (by norm_num) (by decide) (by decide)

/-- C9: every arrangement of grid points is a transform of itself: the
identity transform (`flip = 0`, identity permutation) is in the group. -/
theorem C9_istransformof_refl (size : Size) (a : Finset Point)
    (ha : ∀ p ∈ a, inGrid size p) :
    istransformof size a a = true := by
  rw [istransformof_iff]
  exact ⟨0, pow_pos (by norm_num) size.dim, List.range size.dim, List.Perm.refl _,
    rotatearragement_id size a (fun p hp => (ha p hp).1)⟩

/-- C9 witness: reflexivity on a concrete 3-point arrangement. -/
theorem C9_istransformof_refl_witness :
    istransformof ⟨2, 3⟩ {[0, 0], [0, 1], [2, 2]} {[0, 0], [0, 1], [2, 2]} = true :=
  C9_istransformof_refl ⟨2, 3⟩ {[0, 0], [0, 1], [2, 2]} (by decide)

/-- C10: `distance_squared` is total on tuples of unequal length: it
returns the sum of squared differences over the common prefix (zip
truncation), e.g. `distance_squared (0,0) (0,) = 0`. -/
theorem C10_distance_squared_truncates :
    (∀ p q : Point,
      distance_squared p q =
        ((List.range (min p.length q.length)).map
          (fun i => (p.getD i 0 - q.getD i 0) ^ 2)).sum) ∧
      distance_squared [0, 0] [0] = 0 :=
  ⟨distance_squared_common, by decide⟩

end Mpmp7
